import Mathlib

/-!
Shallow embedding of `src/horus/util/profile.py` (the Horus settings
registry).

Modelling conventions:

* Python (unicode) strings are `PyStr := List Char`; all settings store
  string-encoded values, so the `unicode(value)` coercion at the
  `setValue` boundary is the identity in this model (values enter as
  their string form).
* The process-wide global `_selectedMachineIndex` is passed explicitly
  as a parameter `smi`.
* The global registry (`settingsList` plus `settingsDictionary`) is a
  single `List setting` in registration order.  Python's dictionary
  assignment `settingsDictionary[name] = self` in `setting.__init__`
  makes the dictionary entry for a name always the *last* registered
  setting object with that name, and that object is shared (aliased)
  with its list entry; we model the dictionary lookup as
  `dictFindIdx` / `dictLookup`, which find the last list position
  carrying the name, and in-place mutation of the shared object as
  `List.set` at that position.
* Python exceptions are explicit: a function that can raise returns
  `Option`/`Except`.  `setProfileFromString`'s possible `ValueError`s
  (tuple unpacking of `split('\x0c', 1)` / `split('=', 1)`) are the
  `Except.error` branch, carrying the registry state at raise time so
  that "no mutation happened" is expressible.
* `base64.b64encode ∘ zlib.compress` and its inverse are a transport
  bijection applied after/before the payload logic; the codec is
  modelled at the decompressed payload level (`getProfilePayload`,
  `setProfileFromPayload`), which is where all the claims' content
  lives.
* File writes (`ConfigParser.set`/`write`) are modelled by the list of
  (section, option, value) triples the code emits, in emission order.
-/

namespace Horus

/-- Python strings, as lists of characters. -/
abbrev PyStr := List Char

/-- The pair separator byte `'\x08'` (`'\b'` in the Python source). -/
def bsChar : Char := '\x08'

/-- The block separator byte `'\x0C'` (`'\f'` in the Python source). -/
def ffChar : Char := '\x0c'

/-- The `'='` character used between a setting name and its value. -/
def eqChar : Char := '='

/-- The Python `types` values used for settings (`float`, `int`, `str`). -/
inductive PyType where
  | FloatType
  | IntType
  | StringType
deriving DecidableEq

/-- A validator as configured by `setting.setRange`: a numeric-range
checker with optional bounds (`None` = no bound).  Bound values are
Python numbers, modelled as rationals. -/
structure validator where
  minValue : Option Rat := none
  maxValue : Option Rat := none
deriving DecidableEq

/-- The `setting` object of `profile.py` (lines 55-170).  The opaque
callables (`_conditions`) and display helpers are irrelevant to the
claims and omitted; everything else follows `__init__`. -/
structure setting where
  _name : PyStr
  _label : PyStr
  _tooltip : PyStr
  _default : PyStr
  _values : List PyStr
  _type : PyType
  _category : PyStr
  _subcategory : PyStr
  _validators : List validator
deriving DecidableEq

/-- `setting.isPreference` (line 112): category equals `'preference'`. -/
def setting.isPreference (s : setting) : Bool :=
  decide (s._category = "preference".toList)

/-- `setting.isMachineSetting` (line 115): category equals `'machine'`. -/
def setting.isMachineSetting (s : setting) : Bool :=
  decide (s._category = "machine".toList)

/-- `setting.isProfile` (line 118): neither preference nor machine. -/
def setting.isProfile (s : setting) : Bool :=
  !s.isPreference && !s.isMachineSetting

/-- `setting.getValueIndex` (lines 144-148): machine and profile
settings use the process-wide `_selectedMachineIndex` (parameter
`smi`), preferences always use 0. -/
def setting.getValueIndex (s : setting) (smi : Nat) : Nat :=
  if s.isMachineSetting || s.isProfile then smi else 0

/-- The `while index >= len(self._values): self._values.append(self._default)`
loop of `setting.setValue` (lines 140-141). -/
def padValues (values : List PyStr) (dflt : PyStr) (index : Nat) : List PyStr :=
  if index ≥ values.length then padValues (values ++ [dflt]) dflt index
  else values
termination_by index + 1 - values.length
decreasing_by simp [List.length_append]; omega

/-- `setting.setValue` (lines 137-142) with an explicit index: pad with
the default up to the index, then store the (string form of the)
value. -/
def setting.setValue (s : setting) (value : PyStr) (index : Nat) : setting :=
  { s with _values := (padValues s._values s._default index).set index value }

/-- `setting.getValue` (lines 127-132) restricted to non-negative
indices (the only ones the module itself passes): out-of-range reads
return the default. -/
def setting.getValue (s : setting) (index : Nat) : PyStr :=
  if h : index ≥ s._values.length then s._default
  else s._values[index]

/-- Python list subscription `xs[i]` for a possibly negative index
`i`: non-negative indices must be below the length, negative indices
count from the end; `none` models the `IndexError`. -/
def pyListGet (xs : List PyStr) (i : Int) : Option PyStr :=
  if 0 ≤ i then xs[i.toNat]?
  else if i.natAbs ≤ xs.length then xs[xs.length - i.natAbs]?
  else none

/-- `setting.getValue` (lines 127-132) with full Python index
semantics: the guard `index >= len(self._values)` returns the default,
otherwise the element is fetched by Python list subscription (which
can raise `IndexError`, modelled as `none`). -/
def setting.getValuePy (s : setting) (index : Int) : Option PyStr :=
  if index ≥ (s._values.length : Int) then some s._default
  else pyListGet s._values index

/-- `setting.setRange` (lines 93-98): with no validators attached the
method body is a bare `return` — Python `None`, modelled as `none` in
the second component; otherwise the first validator's bounds are
overwritten and `self` (the mutated setting) is returned.  The result
is `(state after the call, returned value)`. -/
def setting.setRange (s : setting) (minValue maxValue : Option Rat) :
    setting × Option setting :=
  match s._validators with
  | [] => (s, none)
  | v :: rest =>
      let s' := { s with _validators := { v with minValue := minValue,
                                                 maxValue := maxValue } :: rest }
      (s', some s')

/-- Modelled from the spec: the `validators.validFloat` /
`validators.validInt` collaborators invoked by `setting.__init__`
(lines 78-81) live in `horus/util/validators.py`, which is not part of
this module; per the spec (§3) float/int settings "get a numeric-range
validator auto-attached at construction", with bounds initially
unset. -/
def autoValidators (t : PyType) : List validator :=
  match t with
  | .FloatType => [{}]
  | .IntType => [{}]
  | .StringType => []

/-- `setting.__init__` (lines 66-86) minus the registry side effect:
build the object.  `default` arrives as its string form (the
`unicode(default)` coercion). -/
def mkSetting (name default_ : PyStr) (type_ : PyType)
    (category subcategory : PyStr) : setting :=
  { _name := name, _label := name, _tooltip := [], _default := default_,
    _values := [], _type := type_, _category := category,
    _subcategory := subcategory, _validators := autoValidators type_ }

/-- The registry side effect of `setting.__init__` (lines 83-86):
append to `settingsList` (the dictionary is derived, see
`dictFindIdx`). -/
def registerSetting (settings : List setting) (s : setting) : List setting :=
  settings ++ [s]

/-- Position of the `settingsDictionary` entry for a name: Python dict
assignment in `__init__` means the entry is the *last* registered
setting with that name, so lookup finds the last list index whose
setting carries the name (`none` = name not in the dictionary). -/
def dictFindIdx (settings : List setting) (name : PyStr) : Option Nat :=
  match settings with
  | [] => none
  | s :: rest =>
      match dictFindIdx rest name with
      | some i => some (i + 1)
      | none => if s._name = name then some 0 else none

/-- `settingsDictionary[name]` as a lookup of the shared object. -/
def dictLookup (settings : List setting) (name : PyStr) : Option setting :=
  (dictFindIdx settings name).bind (fun i => settings[i]?)

/-- `getMachineSetting` (lines 519-525) with an explicit index: the
value when the name is a known machine setting, `''` (with a printed
diagnostic) otherwise. -/
def getMachineSetting (settings : List setting) (name : PyStr) (index : Nat) : PyStr :=
  match dictLookup settings name with
  | some s => if s.isMachineSetting then s.getValue index else []
  | none => []

/-! ## Codec (`getProfileString` / `setProfileFromString`), at payload level -/

/-- Python `str.split(sep)` for a one-character separator: splitting
the empty string yields one empty part, and each separator occurrence
starts a new part.  Helper returning (first part, remaining parts). -/
def splitOnCharAux (sep : Char) : List Char → List Char × List (List Char)
  | [] => ([], [])
  | c :: rest =>
      let r := splitOnCharAux sep rest
      if c = sep then ([], r.1 :: r.2) else (c :: r.1, r.2)

/-- Python `str.split(sep)` for a one-character separator. -/
def splitOnChar (sep : Char) (l : List Char) : List (List Char) :=
  (splitOnCharAux sep l).1 :: (splitOnCharAux sep l).2

/-- Python `str.split(sep, 1)` unpacked into exactly two variables:
`some (before, after)` at the first separator occurrence, `none` (the
`ValueError` from unpacking a 1-tuple) when the separator is absent. -/
def splitOnce (sep : Char) : List Char → Option (List Char × List Char)
  | [] => none
  | c :: rest =>
      if c = sep then some ([], rest)
      else (splitOnce sep rest).map (fun p => (c :: p.1, p.2))

/-- Python `sep.join(parts)` for a one-character separator. -/
def joinSep (sep : Char) : List (List Char) → List Char
  | [] => []
  | [p] => p
  | p :: q :: rest => p ++ sep :: joinSep sep (q :: rest)

/-- The decompressed payload built by `getProfileString` (lines
338-351): `'\x08'`-joined `name=value` pairs of the profile-category
settings (each read at its default index, i.e. `smi`), then `'\x0c'`,
then the `'\x08'`-join of the always-empty `alt` list. -/
def getProfilePayload (settings : List setting) (smi : Nat) : PyStr :=
  joinSep bsChar (settings.filterMap (fun s =>
    if s.isProfile then some (s._name ++ eqChar :: s.getValue (s.getValueIndex smi))
    else none)) ++ [ffChar]

/-- One `key=value` application inside `setProfileFromString` (lines
326-336): look the key up in `settingsDictionary`; unknown keys are
ignored; in the first block (`onlyProfile = true`) non-profile
settings are skipped; otherwise `setValue(value)` mutates the shared
object (at its default index). -/
def applyOption (onlyProfile : Bool) (smi : Nat) (settings : List setting)
    (key value : PyStr) : List setting :=
  match dictFindIdx settings key with
  | none => settings
  | some i =>
      match settings[i]? with
      | none => settings
      | some s =>
          if onlyProfile && !s.isProfile then settings
          else settings.set i (s.setValue value (s.getValueIndex smi))

/-- The per-block loop of `setProfileFromString`: each non-empty
option is split on the first `'='` (raising `ValueError`, carried as
`Except.error` with the state at raise time, when no `'='` is
present) and applied. -/
def applyOptions (onlyProfile : Bool) (smi : Nat) :
    List setting → List PyStr → Except (List setting) (List setting)
  | settings, [] => .ok settings
  | settings, opt :: rest =>
      if 0 < opt.length then
        match splitOnce eqChar opt with
        | none => .error settings
        | some p =>
            applyOptions onlyProfile smi
              (applyOption onlyProfile smi settings p.1 p.2) rest
      else applyOptions onlyProfile smi settings rest

/-- `setProfileFromString` (lines 317-336) after the transport
decoding (`base64.b64decode` then `zlib.decompress`): split the
payload into the two blocks at the first `'\x0c'` (raising when it is
absent — the `ValueError` from unpacking), apply the first block to
profile-category settings only, then the second block to any known
setting.  `Except.error st` models an exception raised with registry
state `st`. -/
def setProfileFromPayload (settings : List setting) (smi : Nat) (payload : PyStr) :
    Except (List setting) (List setting) :=
  match splitOnce ffChar payload with
  | none => .error settings
  | some blocks =>
      match applyOptions true smi settings (splitOnChar bsChar blocks.1) with
      | .error st => .error st
      | .ok st1 => applyOptions false smi st1 (splitOnChar bsChar blocks.2)

/-! ## Store -/

/-- `saveProfile` with `allMachines = True` (lines 291-299): for each
non-preference, non-machine setting and each `n` in
`xrange(0, getMachineCount())`, emit `profileParser.set('profile_%d' % n,
name, value-at-n)`.  The emitted (section index, option, value)
triples, in emission order.

Modelled from the spec: `getMachineCount` is referenced at line 295
but defined nowhere in this module; the spec says the numbered-section
loop is bounded by "the instance count", so the count is taken as the
parameter `machineCount`. -/
def saveProfileAll (settings : List setting) (machineCount : Nat) :
    List (Nat × PyStr × PyStr) :=
  settings.flatMap (fun s =>
    if s.isPreference || s.isMachineSetting then []
    else (List.range machineCount).map (fun n => (n, s._name, s.getValue n)))

/-- The machine-section loop of `savePreferences` (lines 464-470):
`n = 0; while getMachineSetting('machine_name', n) != '': write
section machine_n; n += 1`.  Fuel-indexed so the model is total:
`some sections` when the loop's stopping condition is reached within
the fuel, `none` when the fuel runs out first; the result lists the
section indices written, in order. -/
def savePrefsMachineLoop (settings : List setting) : Nat → Nat → Option (List Nat)
  | 0, _ => none
  | fuel + 1, n =>
      if getMachineSetting settings "machine_name".toList n = [] then some []
      else (savePrefsMachineLoop settings fuel (n + 1)).map (fun l => n :: l)

/-! ## The module's registered settings (lines 182-187) -/

/-- `setting('step_degrees', 0.45, float, 'basic', 'Step Degrees')`
followed by `.setRange(0.1125)` — the chained call mutates the
registered object, leaving `minValue = 0.1125`, `maxValue = None`. -/
def step_degrees : setting :=
  (mkSetting "step_degrees".toList "0.45".toList .FloatType "basic".toList
    "Step Degrees".toList).setRange (some (1125 / 10000 : Rat)) none |>.1

/-- `setting('step_delay', 800, int, 'basic', 'Step Delay')` followed
by `.setRange(100, 10000)`. -/
def step_delay : setting :=
  (mkSetting "step_delay".toList "800".toList .IntType "basic".toList
    "Step Delay".toList).setRange (some 100) (some 10000) |>.1

/-- `setting('machine_name', '', str, 'machine', 'hidden')` (line 185). -/
def machine_name : setting :=
  mkSetting "machine_name".toList [] .StringType "machine".toList "hidden".toList

/-- `setting('language', 'English', str, 'preference', 'hidden')`
(line 187; the `.setLabel` call only changes display text). -/
def language : setting :=
  mkSetting "language".toList "English".toList .StringType "preference".toList
    "hidden".toList

/-- The registry as populated by the module's declaration block. -/
def initialSettings : List setting :=
  [step_degrees, step_delay, machine_name, language]

/-! ## Basic lemmas about the value store -/

theorem padValues_eq_aux (dflt : PyStr) (index : Nat) (n : Nat) :
    ∀ values : List PyStr, index + 1 - values.length = n →
      padValues values dflt index = values ++ List.replicate n dflt := by
  induction n with
  | zero =>
      intro values h
      rw [padValues, if_neg (by omega)]
      simp
  | succ n ih =>
      intro values h
      rw [padValues, if_pos (by omega)]
      rw [ih (values ++ [dflt]) (by simp; omega)]
      simp [List.replicate_succ]

/-- The padding loop appends exactly the missing number of defaults. -/
theorem padValues_eq (values : List PyStr) (dflt : PyStr) (index : Nat) :
    padValues values dflt index
      = values ++ List.replicate (index + 1 - values.length) dflt :=
  padValues_eq_aux dflt index _ values rfl

theorem length_padValues (values : List PyStr) (dflt : PyStr) (index : Nat) :
    (padValues values dflt index).length = max values.length (index + 1) := by
  rw [padValues_eq]; simp; omega

/-- `getValue` in closed form: the optional lookup with the default as
fallback. -/
theorem getValue_eq (s : setting) (index : Nat) :
    s.getValue index = (s._values[index]?).getD s._default := by
  unfold setting.getValue
  split
  · rw [List.getElem?_eq_none (by omega)]; rfl
  · rw [List.getElem?_eq_getElem (by omega)]; rfl

theorem setValue_values (s : setting) (v : PyStr) (index : Nat) :
    (s.setValue v index)._values
      = (padValues s._values s._default index).set index v := rfl

theorem setValue_default (s : setting) (v : PyStr) (index : Nat) :
    (s.setValue v index)._default = s._default := rfl

theorem setValue_name (s : setting) (v : PyStr) (index : Nat) :
    (s.setValue v index)._name = s._name := rfl

theorem setValue_category (s : setting) (v : PyStr) (index : Nat) :
    (s.setValue v index)._category = s._category := rfl

theorem length_setValue (s : setting) (v : PyStr) (index : Nat) :
    (s.setValue v index)._values.length = max s._values.length (index + 1) := by
  rw [setValue_values, List.length_set, length_padValues]

theorem getValue_setValue_self (s : setting) (v : PyStr) (index : Nat) :
    (s.setValue v index).getValue index = v := by
  rw [getValue_eq, setValue_default, setValue_values,
    List.getElem?_set_self (by rw [length_padValues]; omega)]
  rfl

theorem getValue_of_length_le (s : setting) (index : Nat)
    (h : s._values.length ≤ index) : s.getValue index = s._default := by
  rw [getValue_eq, List.getElem?_eq_none h]; rfl

/-- **C2.** For every setting, every value and every non-negative
index, `setValue(value, index)` followed by `getValue(index)` returns
the string form of the value (values enter this model as their string
form, so the `unicode` coercion is the identity). -/
theorem setValue_then_getValue (s : setting) (v : PyStr) (index : Nat) :
    (s.setValue v index).getValue index = v :=
  getValue_setValue_self s v index

/-- **C3.** Writing at an index `k` beyond the current length pads
every intervening slot in `[len, k)` with the default before storing
the new value at `k`; afterwards reading any padded slot returns the
default, and in general reading at or beyond the stored length
returns the default. -/
theorem setValue_pads_with_default (s : setting) (v : PyStr) (k : Nat)
    (h : s._values.length < k) :
    (s.setValue v k)._values.length = k + 1 ∧
    (∀ j, s._values.length ≤ j → j < k →
      (s.setValue v k)._values[j]? = some s._default ∧
      (s.setValue v k).getValue j = s._default) ∧
    (s.setValue v k).getValue k = v ∧
    (∀ (t : setting) (i : Nat), t._values.length ≤ i →
      t.getValue i = t._default) := by
  refine ⟨by rw [length_setValue]; omega, ?_, getValue_setValue_self s v k,
    fun t i hi => getValue_of_length_le t i hi⟩
  intro j hj1 hj2
  have hget : (s.setValue v k)._values[j]? = some s._default := by
    rw [setValue_values, List.getElem?_set_ne (by omega), padValues_eq,
      List.getElem?_append_right hj1, List.getElem?_replicate,
      if_pos (by omega)]
  exact ⟨hget, by rw [getValue_eq, setValue_default, hget]; rfl⟩

/-- Witness for C3 at a concrete input: an empty machine-name store
written at index 2. -/
theorem setValue_pads_witness :
    machine_name._values.length < 2 ∧
    ((machine_name.setValue ['x'] 2)._values.length = 2 + 1 ∧
     (∀ j, machine_name._values.length ≤ j → j < 2 →
       (machine_name.setValue ['x'] 2)._values[j]? = some machine_name._default ∧
       (machine_name.setValue ['x'] 2).getValue j = machine_name._default) ∧
     (machine_name.setValue ['x'] 2).getValue 2 = ['x'] ∧
     (∀ (t : setting) (i : Nat), t._values.length ≤ i →
       t.getValue i = t._default)) :=
  ⟨by decide, setValue_pads_with_default machine_name ['x'] 2 (by decide)⟩

/-- **C10 (counterexample part of C5 is elsewhere).** `getValue` with
full Python index semantics: it is total (and default-safe) exactly on
non-negative indices; on an empty store every negative index raises
`IndexError` (the out-of-range guard `index >= len` does not catch
negative indices), and on a non-empty store an in-range negative index
returns the element counted from the end instead of the default. -/
theorem getValuePy_negative_index (s : setting) :
    (∀ n : Nat, s.getValuePy n = some (s.getValue n)) ∧
    (s._values = [] → ∀ i : Int, i < 0 → s.getValuePy i = none) ∧
    (∀ i : Int, i < 0 → i.natAbs ≤ s._values.length →
      s.getValuePy i = s._values[s._values.length - i.natAbs]? ∧
      (s._values[s._values.length - i.natAbs]?).isSome = true) := by
  refine ⟨fun n => ?_, fun hv i hi => ?_, fun i hi hle => ?_⟩
  · unfold setting.getValuePy pyListGet
    by_cases h : (s._values.length : Int) ≤ (n : Int)
    · rw [if_pos h, getValue_of_length_le s n (by exact_mod_cast h)]
    · rw [if_neg h, if_pos (by positivity), getValue_eq]
      simp only [Int.toNat_natCast]
      rw [List.getElem?_eq_getElem (by omega)]
      rfl
  · unfold setting.getValuePy pyListGet
    rw [if_neg (by simp [hv]; omega), if_neg (by omega),
      if_neg (by simp [hv]; omega)]
  · have h1 : ¬ (s._values.length : Int) ≤ i := by omega
    have h2 : ¬ (0 : Int) ≤ i := by omega
    unfold setting.getValuePy pyListGet
    rw [if_neg h1, if_neg h2, if_pos hle]
    refine ⟨rfl, ?_⟩
    have : s._values.length - i.natAbs < s._values.length := by
      have : 1 ≤ i.natAbs := by omega
      omega
    rw [List.getElem?_eq_getElem this]
    rfl

/-- Witness for C10: on the two-element store `["a", "b"]` index `-1`
returns `"b"` (the last element); on the empty store index `-1`
raises. -/
theorem getValuePy_negative_index_witness :
    ({ machine_name with _values := [['a'], ['b']] } : setting).getValuePy (-1)
        = some ['b'] ∧
    machine_name._values = [] ∧
    machine_name.getValuePy (-1) = none := by
  refine ⟨?_, rfl, (getValuePy_negative_index machine_name).2.1 rfl (-1) (by decide)⟩
  have h := (getValuePy_negative_index
    ({ machine_name with _values := [['a'], ['b']] } : setting)).2.2
    (-1) (by decide) (by decide)
  rw [h.1]
  decide

/-- **C5 counterexample.** On a setting without validators —
`machine_name` is registered with `str` type, so none is attached —
`setRange` returns Python `None`, not `self`: the claim that it
"in all cases returns the setting itself" is false. -/
theorem setRange_no_validator_returns_none :
    (machine_name.setRange none none).2
      ≠ some ((machine_name.setRange none none).1) := by
  decide

/-- **C5 (amended).** `setRange(min, max)` leaves the validators
untouched and returns Python `None` when no validator is attached;
when at least one is attached it overwrites the first validator's
bounds and returns `self` (the mutated setting). -/
theorem setRange_spec (s : setting) (minV maxV : Option Rat) :
    s.setRange minV maxV
      = match s._validators with
        | [] => (s, none)
        | v :: rest =>
            ({ s with _validators :=
                { v with minValue := minV, maxValue := maxV } :: rest },
             some { s with _validators :=
                { v with minValue := minV, maxValue := maxV } :: rest }) := by
  unfold setting.setRange
  cases s._validators <;> rfl

/-- **C7.** The instance index used when no index is passed
(`getValueIndex`) is 0 for preference settings and the process-wide
current machine index for machine- and profile-category settings; the
index-omitted forms of `getValue`/`setValue` read and write at exactly
that index. -/
theorem getValueIndex_spec (s : setting) (smi : Nat) (v : PyStr) :
    (s.isPreference = true → s.getValueIndex smi = 0 ∧
      s.getValue (s.getValueIndex smi) = s.getValue 0 ∧
      s.setValue v (s.getValueIndex smi) = s.setValue v 0) ∧
    ((s.isMachineSetting = true ∨ s.isProfile = true) →
      s.getValueIndex smi = smi ∧
      s.getValue (s.getValueIndex smi) = s.getValue smi ∧
      s.setValue v (s.getValueIndex smi) = s.setValue v smi) := by
  constructor
  · intro hp
    have hm : s.isMachineSetting = false := by
      unfold setting.isPreference at hp
      unfold setting.isMachineSetting
      simp only [decide_eq_true_eq] at hp ⊢
      rw [hp]; decide
    have hpr : s.isProfile = false := by
      unfold setting.isProfile; rw [hp]; rfl
    have : s.getValueIndex smi = 0 := by
      unfold setting.getValueIndex; rw [hm, hpr]; rfl
    exact ⟨this, by rw [this], by rw [this]⟩
  · intro h
    have : s.getValueIndex smi = smi := by
      unfold setting.getValueIndex
      rcases h with h | h <;> rw [h] <;> simp
    exact ⟨this, by rw [this], by rw [this]⟩

/-- Witness for C7: the `language` preference reads at 0, the
`machine_name` machine setting reads at the current index (here 5). -/
theorem getValueIndex_witness :
    (language.isPreference = true ∧ language.getValueIndex 5 = 0) ∧
    (machine_name.isMachineSetting = true ∧ machine_name.getValueIndex 5 = 5) :=
  ⟨⟨by decide, ((getValueIndex_spec language 5 []).1 (by decide)).1⟩,
   ⟨by decide, ((getValueIndex_spec machine_name 5 []).2 (Or.inl (by decide))).1⟩⟩

/-! ## Registry lemmas and duplicate registration (C9) -/

theorem dictFindIdx_append_singleton (l : List setting) (s : setting) (n : PyStr) :
    dictFindIdx (l ++ [s]) n
      = if s._name = n then some l.length else dictFindIdx l n := by
  induction l with
  | nil => rfl
  | cons a l ih =>
      show (match dictFindIdx (l ++ [s]) n with
        | some i => some (i + 1)
        | none => if a._name = n then some 0 else none) = _
      rw [ih]
      by_cases hs : s._name = n
      · rw [if_pos hs, if_pos hs]
        rfl
      · rw [if_neg hs, if_neg hs]
        rfl

/-- **C9.** Registering a second setting under an existing name keeps
both entries in the ordered list (length grows by one) while the
dictionary entry is overwritten: lookup by that name returns the later
setting. -/
theorem duplicate_registration (st : List setting) (s1 s2 : setting)
    (h : s2._name = s1._name) :
    (registerSetting (registerSetting st s1) s2).length
        = (registerSetting st s1).length + 1 ∧
    dictLookup (registerSetting (registerSetting st s1) s2) s1._name = some s2 := by
  refine ⟨by unfold registerSetting; rw [List.length_append]; rfl, ?_⟩
  unfold dictLookup registerSetting
  rw [dictFindIdx_append_singleton, if_pos h]
  exact List.getElem?_concat_length _ _

/-- Witness for C9: registering `machine_name` twice (the second copy
relabelled) into the empty registry. -/
theorem duplicate_registration_witness :
    ({ machine_name with _label := ['x'] } : setting)._name = machine_name._name ∧
    (registerSetting (registerSetting [] machine_name)
        { machine_name with _label := ['x'] }).length
      = (registerSetting [] machine_name).length + 1 ∧
    dictLookup (registerSetting (registerSetting [] machine_name)
        { machine_name with _label := ['x'] }) machine_name._name
      = some { machine_name with _label := ['x'] } :=
  ⟨rfl, duplicate_registration [] machine_name
    { machine_name with _label := ['x'] } rfl⟩

/-! ## Codec error path (C4) -/

theorem splitOnce_of_not_mem (sep : Char) (l : List Char) (h : sep ∉ l) :
    splitOnce sep l = none := by
  induction l with
  | nil => rfl
  | cons c rest ih =>
      simp only [List.mem_cons, not_or] at h
      show (if c = sep then some ([], rest)
        else (splitOnce sep rest).map fun p => (c :: p.1, p.2)) = none
      rw [if_neg (fun hc : c = sep => h.1 hc.symm), ih h.2]
      rfl

/-- **C4.** When the decompressed payload contains no block-separator
byte `'\x0c'`, `setProfileFromString` raises (the `ValueError` from
unpacking the one-element split) before any option is applied, so the
error carries the registry state unchanged. -/
theorem setProfileFromPayload_missing_sep (settings : List setting) (smi : Nat)
    (payload : PyStr) (h : ffChar ∉ payload) :
    setProfileFromPayload settings smi payload = .error settings := by
  unfold setProfileFromPayload
  rw [splitOnce_of_not_mem ffChar payload h]

/-- Witness for C4: the payload `"abc"` has no `'\x0c'`; decoding it
against the module's registry errors out with the registry intact. -/
theorem setProfileFromPayload_missing_sep_witness :
    ffChar ∉ "abc".toList ∧
    setProfileFromPayload initialSettings 0 "abc".toList
      = .error initialSettings :=
  ⟨by decide, setProfileFromPayload_missing_sep initialSettings 0 "abc".toList
    (by decide)⟩

/-! ## Multi-machine profile save (C6) -/

/-- **C6.** `saveProfile` with `allMachines = True`: every
non-preference, non-machine setting has its value at every index below
the machine count written into the numbered `profile_N` section, and
no entry is emitted for a section index at or beyond the count (the
loop stops at the instance-count bound).  The in-memory emission never
fails; actually writing the file either succeeds or raises the
underlying I/O error, which is outside this model. -/
theorem saveProfileAll_spec (settings : List setting) (machineCount : Nat) :
    (∀ s ∈ settings, s.isPreference = false → s.isMachineSetting = false →
      ∀ n, n < machineCount →
        (n, s._name, s.getValue n) ∈ saveProfileAll settings machineCount) ∧
    (∀ e ∈ saveProfileAll settings machineCount, e.1 < machineCount) := by
  constructor
  · intro s hs hp hm n hn
    unfold saveProfileAll
    rw [List.mem_flatMap]
    refine ⟨s, hs, ?_⟩
    rw [if_neg (by rw [hp, hm]; decide), List.mem_map]
    exact ⟨n, List.mem_range.2 hn, rfl⟩
  · intro e he
    unfold saveProfileAll at he
    rw [List.mem_flatMap] at he
    obtain ⟨s, _, hmem⟩ := he
    by_cases hc : s.isPreference || s.isMachineSetting
    · rw [if_pos hc] at hmem; cases hmem
    · rw [if_neg hc, List.mem_map] at hmem
      obtain ⟨n, hn, rfl⟩ := hmem
      exact List.mem_range.1 hn

/-- Witness for C6: in the module registry with machine count 2,
`step_degrees` (a profile setting) is written into sections
`profile_0` and `profile_1`, and every emitted entry stays below
section index 2. -/
theorem saveProfileAll_witness :
    step_degrees ∈ initialSettings ∧
    step_degrees.isPreference = false ∧
    step_degrees.isMachineSetting = false ∧
    (1 : Nat) < 2 ∧
    (1, step_degrees._name, step_degrees.getValue 1)
      ∈ saveProfileAll initialSettings 2 ∧
    (∀ e ∈ saveProfileAll initialSettings 2, e.1 < 2) :=
  ⟨by unfold initialSettings; exact List.mem_cons_self _ _,
   by decide, by decide, by decide,
   (saveProfileAll_spec initialSettings 2).1 step_degrees
     (by unfold initialSettings; exact List.mem_cons_self _ _)
     (by decide) (by decide) 1 (by decide),
   (saveProfileAll_spec initialSettings 2).2⟩

/-! ## Preferences save: the machine-section loop (C8) -/

theorem savePrefsMachineLoop_run (settings : List setting) (mn : setting)
    (hdict : dictLookup settings "machine_name".toList = some mn)
    (hcat : mn.isMachineSetting = true) (k : Nat)
    (hk : mn.getValue k = []) (hmin : ∀ j, j < k → mn.getValue j ≠ []) :
    ∀ fuel n, n ≤ k → k < n + fuel →
      savePrefsMachineLoop settings fuel n = some (List.range' n (k - n)) := by
  intro fuel
  induction fuel with
  | zero => intro n h1 h2; omega
  | succ fuel ih =>
      intro n h1 h2
      have hms : getMachineSetting settings "machine_name".toList n
          = mn.getValue n := by
        unfold getMachineSetting
        rw [hdict]
        show (if mn.isMachineSetting = true then mn.getValue n else [])
          = mn.getValue n
        rw [if_pos hcat]
      show (if getMachineSetting settings "machine_name".toList n = [] then some []
        else (savePrefsMachineLoop settings fuel (n + 1)).map fun l => n :: l)
        = some (List.range' n (k - n))
      by_cases hn : n = k
      · subst hn
        rw [if_pos (by rw [hms, hk]), Nat.sub_self]
        rfl
      · rw [if_neg (by rw [hms]; exact hmin n (by omega)),
          ih (n + 1) (by omega) (by omega)]
        have hkn : k - n = (k - (n + 1)) + 1 := by omega
        rw [hkn, List.range'_succ]
        rfl

/-- **C8.** With `machine_name` registered as a machine setting whose
default is the empty string, the `while getMachineSetting('machine_name', n)
!= ''` loop of `savePreferences` writes `machine_N` sections exactly
for the indices `0 .. k-1`, where `k` is the first index at which
`machine_name`'s value is empty — and such a `k` always exists (so the
loop terminates within `len + 1` iterations), because reading at or
beyond the stored length returns the default `''`. -/
theorem savePreferences_machine_sections (settings : List setting) (mn : setting)
    (hdict : dictLookup settings "machine_name".toList = some mn)
    (hcat : mn.isMachineSetting = true) (hdef : mn._default = []) :
    ∃ k, mn.getValue k = [] ∧ (∀ j, j < k → mn.getValue j ≠ []) ∧
      savePrefsMachineLoop settings (mn._values.length + 1) 0
        = some (List.range k) := by
  have hlen : mn.getValue mn._values.length = [] := by
    rw [getValue_of_length_le mn _ le_rfl, hdef]
  have hex : ∃ n, mn.getValue n = [] := ⟨mn._values.length, hlen⟩
  refine ⟨Nat.find hex, Nat.find_spec hex,
    fun j hj => Nat.find_min hex hj, ?_⟩
  have hle : Nat.find hex ≤ mn._values.length := Nat.find_le hlen
  have hrun := savePrefsMachineLoop_run settings mn hdict hcat (Nat.find hex)
    (Nat.find_spec hex) (fun j hj => Nat.find_min hex hj)
    (mn._values.length + 1) 0 (by omega) (by omega)
  rw [List.range_eq_range', hrun, Nat.sub_zero]

/-- Witness for C8: `machine_name` holding `["a", "b"]` — the loop
writes sections 0 and 1 and stops at index 2, whose value is the
(empty) default. -/
theorem savePreferences_machine_sections_witness :
    dictLookup [{ machine_name with _values := [['a'], ['b']] }]
        "machine_name".toList
      = some { machine_name with _values := [['a'], ['b']] } ∧
    ({ machine_name with _values := [['a'], ['b']] } : setting).isMachineSetting
      = true ∧
    ({ machine_name with _values := [['a'], ['b']] } : setting)._default = [] ∧
    ∃ k, ({ machine_name with _values := [['a'], ['b']] } : setting).getValue k
        = [] ∧
      (∀ j, j < k →
        ({ machine_name with _values := [['a'], ['b']] } : setting).getValue j
          ≠ []) ∧
      savePrefsMachineLoop [{ machine_name with _values := [['a'], ['b']] }]
        (({ machine_name with _values := [['a'], ['b']] } :
          setting)._values.length + 1) 0
        = some (List.range k) :=
  ⟨by decide, by decide, rfl,
   savePreferences_machine_sections _ _ (by decide) (by decide) rfl⟩

/-! ## Round trip of the profile codec (C1): split/join lemmas -/

theorem splitOnCharAux_append_of_not_mem (sep : Char) (x l : List Char)
    (h : sep ∉ x) :
    splitOnCharAux sep (x ++ l)
      = (x ++ (splitOnCharAux sep l).1, (splitOnCharAux sep l).2) := by
  induction x with
  | nil => rfl
  | cons c x ih =>
      simp only [List.mem_cons, not_or] at h
      show (let r := splitOnCharAux sep (x ++ l);
        if c = sep then ([], r.1 :: r.2) else (c :: r.1, r.2)) = _
      rw [ih h.2, if_neg (fun hc : c = sep => h.1 hc.symm)]
      rfl

/-- Splitting a separator-join recovers the parts (when each part is
separator-free and the list of parts is non-empty). -/
theorem splitOnChar_joinSep (sep : Char) (parts : List (List Char))
    (hne : parts ≠ []) (h : ∀ p ∈ parts, sep ∉ p) :
    splitOnChar sep (joinSep sep parts) = parts := by
  induction parts with
  | nil => exact absurd rfl hne
  | cons p parts ih =>
      cases parts with
      | nil =>
          have hp : sep ∉ p := h p (List.mem_cons_self _ _)
          have hj : joinSep sep [p] = p := rfl
          unfold splitOnChar
          rw [hj]
          have haux : splitOnCharAux sep (p ++ [])
              = (p ++ (splitOnCharAux sep ([] : List Char)).1,
                 (splitOnCharAux sep ([] : List Char)).2) :=
            splitOnCharAux_append_of_not_mem sep p [] hp
          rw [List.append_nil] at haux
          rw [haux]
          show (p ++ ([] : List Char)) :: ([] : List (List Char)) = [p]
          rw [List.append_nil]
      | cons q parts' =>
          have hp : sep ∉ p := h p (List.mem_cons_self _ _)
          show splitOnChar sep (p ++ sep :: joinSep sep (q :: parts'))
            = p :: q :: parts'
          unfold splitOnChar
          rw [splitOnCharAux_append_of_not_mem sep p _ hp]
          show (p ++ (splitOnCharAux sep (sep :: joinSep sep (q :: parts'))).1)
              :: (splitOnCharAux sep (sep :: joinSep sep (q :: parts'))).2
            = p :: q :: parts'
          have hstep : splitOnCharAux sep (sep :: joinSep sep (q :: parts'))
              = ([], (splitOnCharAux sep (joinSep sep (q :: parts'))).1
                  :: (splitOnCharAux sep (joinSep sep (q :: parts'))).2) := by
            show (let r := splitOnCharAux sep (joinSep sep (q :: parts'));
              if sep = sep then ([], r.1 :: r.2) else (sep :: r.1, r.2)) = _
            rw [if_pos rfl]
          rw [hstep]
          have hrec : splitOnChar sep (joinSep sep (q :: parts')) = q :: parts' :=
            ih (by exact List.cons_ne_nil q parts')
              (fun r hr => h r (List.mem_cons_of_mem p hr))
          unfold splitOnChar at hrec
          show (p ++ ([] : List Char))
              :: ((splitOnCharAux sep (joinSep sep (q :: parts'))).1
                  :: (splitOnCharAux sep (joinSep sep (q :: parts'))).2)
            = p :: q :: parts'
          rw [List.append_nil, hrec]

theorem splitOnce_append_sep (sep : Char) (x y : List Char) (h : sep ∉ x) :
    splitOnce sep (x ++ sep :: y) = some (x, y) := by
  induction x with
  | nil =>
      show (if sep = sep then some ([], y)
        else (splitOnce sep y).map fun p => (sep :: p.1, p.2)) = some ([], y)
      rw [if_pos rfl]
  | cons c x ih =>
      simp only [List.mem_cons, not_or] at h
      show (if c = sep then some ([], x ++ sep :: y)
        else (splitOnce sep (x ++ sep :: y)).map fun p => (c :: p.1, p.2))
        = some (c :: x, y)
      rw [if_neg (fun hc : c = sep => h.1 hc.symm), ih h.2]
      rfl

theorem mem_joinSep (sep : Char) (parts : List (List Char)) (c : Char)
    (h : c ∈ joinSep sep parts) : c = sep ∨ ∃ p ∈ parts, c ∈ p := by
  induction parts with
  | nil => cases h
  | cons p parts ih =>
      cases parts with
      | nil =>
          exact Or.inr ⟨p, List.mem_cons_self _ _, h⟩
      | cons q parts' =>
          rw [show joinSep sep (p :: q :: parts')
            = p ++ sep :: joinSep sep (q :: parts') from rfl,
            List.mem_append, List.mem_cons] at h
          rcases h with h | h | h
          · exact Or.inr ⟨p, List.mem_cons_self _ _, h⟩
          · exact Or.inl h
          · rcases ih h with h | ⟨r, hr, hc⟩
            · exact Or.inl h
            · exact Or.inr ⟨r, List.mem_cons_of_mem p hr, hc⟩

/-! ## Round trip of the profile codec (C1): dictionary-lookup lemmas -/

theorem dictFindIdx_eq_none_iff (settings : List setting) (n : PyStr) :
    dictFindIdx settings n = none ↔ ∀ s ∈ settings, s._name ≠ n := by
  induction settings with
  | nil => simp [dictFindIdx]
  | cons a l ih =>
      show (match dictFindIdx l n with
        | some i => some (i + 1)
        | none => if a._name = n then some 0 else none) = none ↔ _
      cases hd : dictFindIdx l n with
      | some i => simp [← ih, hd]
      | none =>
          rcases ih.1 hd with hl
          by_cases ha : a._name = n
          · simp [if_pos ha, ha]
          · simp only [if_neg ha, List.mem_cons]
            constructor
            · rintro _ s (rfl | hs)
              · exact ha
              · exact hl s hs
            · intro _; trivial

theorem dictFindIdx_spec (settings : List setting) (n : PyStr) (i : Nat)
    (h : dictFindIdx settings n = some i) :
    (∃ s, settings[i]? = some s ∧ s._name = n) ∧
    (∀ j, i < j → ∀ s, settings[j]? = some s → s._name ≠ n) := by
  induction settings generalizing i with
  | nil => cases h
  | cons a l ih =>
      rw [show dictFindIdx (a :: l) n = (match dictFindIdx l n with
        | some k => some (k + 1)
        | none => if a._name = n then some 0 else none) from rfl] at h
      cases hd : dictFindIdx l n with
      | some k =>
          rw [hd] at h
          obtain rfl : k + 1 = i := by cases h; rfl
          obtain ⟨⟨s, hs, hn⟩, hlast⟩ := ih k hd
          refine ⟨⟨s, by simpa using hs, hn⟩, ?_⟩
          intro j hj t ht
          cases j with
          | zero => omega
          | succ j' => exact hlast j' (by omega) t (by simpa using ht)
      | none =>
          rw [hd] at h
          by_cases ha : a._name = n
          · rw [if_pos ha] at h
            obtain rfl : 0 = i := by cases h; rfl
            refine ⟨⟨a, by simp, ha⟩, ?_⟩
            intro j hj t ht
            cases j with
            | zero => omega
            | succ j' =>
                have hl := (dictFindIdx_eq_none_iff l n).1 hd
                exact hl t (by
                  rw [List.mem_iff_getElem?]
                  exact ⟨j', by simpa using ht⟩)
          · rw [if_neg ha] at h
            cases h

theorem dictFindIdx_lt_length (settings : List setting) (n : PyStr) (i : Nat)
    (h : dictFindIdx settings n = some i) : i < settings.length := by
  obtain ⟨⟨s, hs, _⟩, _⟩ := dictFindIdx_spec settings n i h
  exact (List.getElem?_eq_some.1 hs).1

/-- The dictionary lookup only inspects the name column. -/
theorem dictFindIdx_congr (st₁ st₂ : List setting) (n : PyStr)
    (h : st₁.map setting._name = st₂.map setting._name) :
    dictFindIdx st₁ n = dictFindIdx st₂ n := by
  induction st₁ generalizing st₂ with
  | nil =>
      cases st₂ with
      | nil => rfl
      | cons b l₂ => cases h
  | cons a l₁ ih =>
      cases st₂ with
      | nil => cases h
      | cons b l₂ =>
          simp only [List.map_cons, List.cons.injEq] at h
          show (match dictFindIdx l₁ n with
            | some i => some (i + 1)
            | none => if a._name = n then some 0 else none)
            = (match dictFindIdx l₂ n with
            | some i => some (i + 1)
            | none => if b._name = n then some 0 else none)
          rw [ih l₂ h.2, h.1]

/-! ## Round trip of the profile codec (C1): option-application lemmas -/

theorem set_self_of_getElem? {α : Type _} {l : List α} {i : Nat} {a : α}
    (h : l[i]? = some a) : l.set i a = l := by
  apply List.ext_getElem?
  intro j
  rw [List.getElem?_set]
  by_cases hij : i = j
  · subst hij
    by_cases hlen : i < l.length
    · rw [if_pos rfl, if_pos hlen, h]
    · rw [List.getElem?_eq_none (by omega)] at h
      cases h
  · rw [if_neg hij]

/-- `applyOption` either leaves the registry untouched, or overwrites
exactly the dictionary-target position of the key with a `setValue` on
the setting found there (in the profile-only block, only when that
setting is a profile setting). -/
theorem applyOption_cases (b : Bool) (smi : Nat) (st : List setting)
    (k v : PyStr) :
    applyOption b smi st k v = st ∨
    ∃ i s, dictFindIdx st k = some i ∧ st[i]? = some s ∧
      (b = true → s.isProfile = true) ∧
      applyOption b smi st k v
        = st.set i (s.setValue v (s.getValueIndex smi)) := by
  unfold applyOption
  split
  · exact Or.inl rfl
  · rename_i i hd
    split
    · exact Or.inl rfl
    · rename_i s hs
      split
      · exact Or.inl rfl
      · rename_i hcond
        refine Or.inr ⟨i, s, hd, hs, ?_, rfl⟩
        intro hb
        subst hb
        cases hprof : s.isProfile
        · exact absurd (by rw [hprof]; rfl) hcond
        · rfl

/-- When the key's dictionary target is known and the block condition
allows the write, `applyOption` is exactly the `List.set` at the
target. -/
theorem applyOption_hit (b : Bool) (smi : Nat) (st : List setting)
    (k v : PyStr) (i : Nat) (s : setting)
    (hd : dictFindIdx st k = some i) (hs : st[i]? = some s)
    (hcond : b = false ∨ s.isProfile = true) :
    applyOption b smi st k v
      = st.set i (s.setValue v (s.getValueIndex smi)) := by
  unfold applyOption
  rw [hd]
  show (match st[i]? with
    | none => st
    | some s =>
        if b && !s.isProfile then st
        else st.set i (s.setValue v (s.getValueIndex smi))) = _
  rw [hs]
  show (if b && !s.isProfile then st
    else st.set i (s.setValue v (s.getValueIndex smi))) = _
  rcases hcond with hb | hp
  · rw [hb, if_neg (by simp)]
  · rw [hp, if_neg (by simp)]

/-- Any field function that ignores `_values` (name, category, ...) is
invariant under `applyOption`. -/
theorem applyOption_map_field {β : Type _} (f : setting → β)
    (hf : ∀ s v n, f (s.setValue v n) = f s) (b : Bool) (smi : Nat)
    (st : List setting) (k v : PyStr) :
    (applyOption b smi st k v).map f = st.map f := by
  rcases applyOption_cases b smi st k v with h | ⟨i, s, _, hs, _, h⟩
  · rw [h]
  · rw [h, List.map_set, hf]
    exact set_self_of_getElem? (by rw [List.getElem?_map, hs]; rfl)

theorem applyOption_getElem?_untouched (b : Bool) (smi : Nat)
    (st : List setting) (k v : PyStr) (i : Nat)
    (h : dictFindIdx st k = some i →
      b = true ∧ ∀ s, st[i]? = some s → s.isProfile = false) :
    (applyOption b smi st k v)[i]? = st[i]? := by
  rcases applyOption_cases b smi st k v with heq | ⟨j, s, hd, hs, hbp, heq⟩
  · rw [heq]
  · by_cases hij : j = i
    · subst hij
      obtain ⟨hb, hp⟩ := h hd
      have h1 := hbp hb
      have h2 := hp s hs
      rw [h1] at h2
      cases h2
    · rw [heq, List.getElem?_set_ne hij]

/-- The sequential application of parsed `(key, value)` pairs: the
loop body of each decode block once every option has been split at its
first `'='`. -/
def applyPairs (b : Bool) (smi : Nat) (st : List setting)
    (ps : List (PyStr × PyStr)) : List setting :=
  ps.foldl (fun st p => applyOption b smi st p.1 p.2) st

theorem applyPairs_cons (b : Bool) (smi : Nat) (st : List setting)
    (p : PyStr × PyStr) (ps : List (PyStr × PyStr)) :
    applyPairs b smi st (p :: ps)
      = applyPairs b smi (applyOption b smi st p.1 p.2) ps := rfl

theorem applyPairs_append (b : Bool) (smi : Nat) (st : List setting)
    (ps qs : List (PyStr × PyStr)) :
    applyPairs b smi st (ps ++ qs)
      = applyPairs b smi (applyPairs b smi st ps) qs :=
  List.foldl_append _ _ _ _

theorem applyPairs_map_field {β : Type _} (f : setting → β)
    (hf : ∀ s v n, f (s.setValue v n) = f s) (b : Bool) (smi : Nat)
    (st : List setting) (ps : List (PyStr × PyStr)) :
    (applyPairs b smi st ps).map f = st.map f := by
  induction ps generalizing st with
  | nil => rfl
  | cons p ps ih =>
      rw [applyPairs_cons, ih, applyOption_map_field f hf]

theorem applyPairs_map_name (b : Bool) (smi : Nat) (st : List setting)
    (ps : List (PyStr × PyStr)) :
    (applyPairs b smi st ps).map setting._name = st.map setting._name :=
  applyPairs_map_field setting._name (fun _ _ _ => rfl) b smi st ps

theorem applyPairs_map_category (b : Bool) (smi : Nat) (st : List setting)
    (ps : List (PyStr × PyStr)) :
    (applyPairs b smi st ps).map setting._category = st.map setting._category :=
  applyPairs_map_field setting._category (fun _ _ _ => rfl) b smi st ps

theorem applyPairs_length (b : Bool) (smi : Nat) (st : List setting)
    (ps : List (PyStr × PyStr)) :
    (applyPairs b smi st ps).length = st.length := by
  have h := congrArg List.length (applyPairs_map_name b smi st ps)
  simpa using h

theorem applyPairs_untouched (b : Bool) (smi : Nat) (st : List setting)
    (ps : List (PyStr × PyStr)) (i : Nat)
    (h : ∀ p ∈ ps, dictFindIdx st p.1 = some i →
      b = true ∧ ∀ s, st[i]? = some s → s.isProfile = false) :
    (applyPairs b smi st ps)[i]? = st[i]? := by
  induction ps generalizing st with
  | nil => rfl
  | cons p ps ih =>
      rw [applyPairs_cons]
      have hstep : (applyOption b smi st p.1 p.2)[i]? = st[i]? :=
        applyOption_getElem?_untouched b smi st p.1 p.2 i
          (h p (List.mem_cons_self _ _))
      rw [ih (applyOption b smi st p.1 p.2) ?_, hstep]
      intro q hq hd'
      have hd : dictFindIdx st q.1 = some i := by
        rw [← dictFindIdx_congr (applyOption b smi st p.1 p.2) st q.1
          (applyOption_map_field setting._name (fun _ _ _ => rfl) b smi st p.1 p.2)]
        exact hd'
      obtain ⟨hb, hp⟩ := h q (List.mem_cons_of_mem p hq) hd
      exact ⟨hb, fun s hs => hp s (by rw [← hstep]; exact hs)⟩

/-- `isProfile` only looks at the category. -/
theorem isProfile_congr (s t : setting) (h : s._category = t._category) :
    s.isProfile = t.isProfile := by
  unfold setting.isProfile setting.isPreference setting.isMachineSetting
  rw [h]

theorem applyPairs_last_target (smi : Nat) (st : List setting)
    (ps : List (PyStr × PyStr)) (k v : PyStr) (i : Nat) (s : setting)
    (hd : dictFindIdx st k = some i) (hs : st[i]? = some s)
    (hp : s.isProfile = true) :
    ∃ s', (applyPairs true smi st (ps ++ [(k, v)]))[i]? = some s' ∧
      s'._name = s._name ∧ s'._category = s._category ∧
      s'.getValue smi = v := by
  rw [applyPairs_append]
  have hname := applyPairs_map_name true smi st ps
  have hcat := applyPairs_map_category true smi st ps
  have hd' : dictFindIdx (applyPairs true smi st ps) k = some i := by
    rw [dictFindIdx_congr _ st k hname]; exact hd
  have hi : i < st.length := (List.getElem?_eq_some.1 hs).1
  have hi' : i < (applyPairs true smi st ps).length := by
    rw [applyPairs_length]; exact hi
  obtain ⟨s'', hs''⟩ : ∃ s'', (applyPairs true smi st ps)[i]? = some s'' :=
    ⟨_, List.getElem?_eq_getElem hi'⟩
  have hfield : ∀ {β : Type} (f : setting → β),
      (applyPairs true smi st ps).map f = st.map f → f s'' = f s := by
    intro β f hmap
    have h1 := congrArg (fun l => l[i]?) hmap
    simp only [List.getElem?_map, hs'', hs] at h1
    exact Option.some.inj h1
  have hname'' : s''._name = s._name := hfield setting._name hname
  have hcat'' : s''._category = s._category := hfield setting._category hcat
  have hprof'' : s''.isProfile = true := by
    rw [isProfile_congr s'' s hcat'']; exact hp
  have hidx : s''.getValueIndex smi = smi :=
    ((getValueIndex_spec s'' smi []).2 (Or.inr hprof'')).1
  refine ⟨s''.setValue v (s''.getValueIndex smi), ?_,
    by rw [setValue_name, hname''],
    by rw [setValue_category, hcat''],
    by rw [hidx]; exact getValue_setValue_self s'' v smi⟩
  show (applyOption true smi (applyPairs true smi st ps) k v)[i]?
    = some (s''.setValue v (s''.getValueIndex smi))
  rw [applyOption_hit true smi _ k v i s'' hd' hs'' (Or.inr hprof'')]
  exact List.getElem?_set_self hi'

/-! ## Round trip of the profile codec (C1): the encoded pair list -/

/-- The (name, value) pairs `getProfileString` encodes: one per
profile-category setting, in list order, read at the current machine
index. -/
def profilePairs (settings : List setting) (smi : Nat) : List (PyStr × PyStr) :=
  settings.filterMap (fun s =>
    if s.isProfile then some (s._name, s.getValue smi) else none)

theorem getProfilePayload_eq (settings : List setting) (smi : Nat) :
    getProfilePayload settings smi
      = joinSep bsChar ((profilePairs settings smi).map
          (fun p => p.1 ++ eqChar :: p.2)) ++ [ffChar] := by
  unfold getProfilePayload profilePairs
  rw [List.map_filterMap]
  congr 2
  apply List.filterMap_congr
  intro s _
  by_cases hp : s.isProfile = true
  · rw [if_pos hp, if_pos hp,
      ((getValueIndex_spec s smi []).2 (Or.inr hp)).1]
    rfl
  · rw [if_neg hp, if_neg hp]
    rfl

/-- Feeding the encoded `name=value` strings through a decode block is
the sequential pair application, provided no name contains `'='`. -/
theorem applyOptions_parse (b : Bool) (smi : Nat) (st : List setting)
    (ps : List (PyStr × PyStr)) (h : ∀ p ∈ ps, eqChar ∉ p.1) :
    applyOptions b smi st (ps.map (fun p => p.1 ++ eqChar :: p.2))
      = .ok (applyPairs b smi st ps) := by
  induction ps generalizing st with
  | nil => rfl
  | cons p ps ih =>
      show (if 0 < (p.1 ++ eqChar :: p.2).length then
        match splitOnce eqChar (p.1 ++ eqChar :: p.2) with
        | none => Except.error st
        | some q => applyOptions b smi (applyOption b smi st q.1 q.2)
            (ps.map fun p => p.1 ++ eqChar :: p.2)
        else applyOptions b smi st (ps.map fun p => p.1 ++ eqChar :: p.2))
        = Except.ok (applyPairs b smi st (p :: ps))
      rw [if_pos (by simp),
        splitOnce_append_sep eqChar p.1 p.2 (h p (List.mem_cons_self _ _))]
      show applyOptions b smi (applyOption b smi st p.1 p.2)
          (ps.map fun p => p.1 ++ eqChar :: p.2)
        = Except.ok (applyPairs b smi st (p :: ps))
      rw [ih (applyOption b smi st p.1 p.2)
        (fun q hq => h q (List.mem_cons_of_mem p hq)), applyPairs_cons]

theorem profilePairs_mem (settings : List setting) (smi : Nat)
    (p : PyStr × PyStr) (hp : p ∈ profilePairs settings smi) :
    ∃ s ∈ settings, s.isProfile = true ∧ p = (s._name, s.getValue smi) := by
  unfold profilePairs at hp
  rw [List.mem_filterMap] at hp
  obtain ⟨s, hs, henc⟩ := hp
  by_cases h : s.isProfile = true
  · rw [if_pos h] at henc
    exact ⟨s, hs, h, (Option.some.inj henc).symm⟩
  · rw [if_neg h] at henc
    cases henc

theorem profilePairs_decomp (settings : List setting) (smi : Nat) (i : Nat)
    (s : setting) (hs : settings[i]? = some s) (hp : s.isProfile = true) :
    profilePairs settings smi
      = profilePairs (settings.take i) smi
        ++ (s._name, s.getValue smi)
          :: profilePairs (settings.drop (i + 1)) smi := by
  obtain ⟨hi, rfl⟩ := List.getElem?_eq_some.1 hs
  unfold profilePairs
  conv_lhs => rw [← List.take_append_drop i settings]
  rw [List.filterMap_append, ← List.getElem_cons_drop settings i hi,
    List.filterMap_cons_some (by rw [if_pos hp])]

theorem drop_names_ne (settings : List setting) (n : PyStr) (i : Nat)
    (hd : dictFindIdx settings n = some i) :
    ∀ t ∈ settings.drop (i + 1), t._name ≠ n := by
  intro t ht
  rw [List.mem_iff_getElem?] at ht
  obtain ⟨j, hj⟩ := ht
  rw [List.getElem?_drop] at hj
  exact (dictFindIdx_spec settings n i hd).2 (i + 1 + j) (by omega) t hj

/-- **C1 (amended).** Decode after encode restores every
profile-category setting's value at the current machine index,
provided profile setting names contain neither `'='` nor the separator
bytes `0x08`/`0x0C`, and their encoded values contain neither
separator byte.  (The claim as frozen only excluded `'='` from names
and the separators from values; a name containing a separator byte
makes the decode raise, see the counterexample.) -/
theorem profile_string_roundtrip (settings : List setting) (smi : Nat)
    (h : ∀ s ∈ settings, s.isProfile = true →
      eqChar ∉ s._name ∧ bsChar ∉ s._name ∧ ffChar ∉ s._name ∧
      bsChar ∉ s.getValue smi ∧ ffChar ∉ s.getValue smi) :
    ∃ final : List setting,
      setProfileFromPayload settings smi (getProfilePayload settings smi)
        = .ok final ∧
      final.length = settings.length ∧
      ∀ (i : Nat) (s : setting), settings[i]? = some s →
        ∃ s' : setting, final[i]? = some s' ∧
        s'._name = s._name ∧
        (s.isProfile = true → s'.getValue smi = s.getValue smi) := by
  have hpairfacts : ∀ p ∈ profilePairs settings smi,
      eqChar ∉ p.1 ∧ bsChar ∉ p.1 ∧ ffChar ∉ p.1 ∧
      bsChar ∉ p.2 ∧ ffChar ∉ p.2 := by
    intro p hp
    obtain ⟨s, hsmem, hsprof, rfl⟩ := profilePairs_mem settings smi p hp
    exact h s hsmem hsprof
  have hmemenc : ∀ part ∈ (profilePairs settings smi).map
      (fun p => p.1 ++ eqChar :: p.2), bsChar ∉ part ∧ ffChar ∉ part := by
    intro part hpart
    rw [List.mem_map] at hpart
    obtain ⟨p, hp, rfl⟩ := hpart
    obtain ⟨h1, h2, h3, h4, h5⟩ := hpairfacts p hp
    constructor
    · intro hmem
      rw [List.mem_append, List.mem_cons] at hmem
      rcases hmem with hm | hm | hm
      · exact h2 hm
      · exact absurd hm (by decide)
      · exact h4 hm
    · intro hmem
      rw [List.mem_append, List.mem_cons] at hmem
      rcases hmem with hm | hm | hm
      · exact h3 hm
      · exact absurd hm (by decide)
      · exact h5 hm
  have hff : ffChar ∉ joinSep bsChar ((profilePairs settings smi).map
      (fun p => p.1 ++ eqChar :: p.2)) := by
    intro hmem
    rcases mem_joinSep bsChar _ ffChar hmem with heq | ⟨part, hpart, hin⟩
    · exact absurd heq (by decide)
    · exact (hmemenc part hpart).2 hin
  have hsplit : splitOnce ffChar (getProfilePayload settings smi)
      = some (joinSep bsChar ((profilePairs settings smi).map
          (fun p => p.1 ++ eqChar :: p.2)), []) := by
    rw [getProfilePayload_eq]
    exact splitOnce_append_sep _ _ _ hff
  by_cases hne : profilePairs settings smi = []
  · have hdecode : setProfileFromPayload settings smi
        (getProfilePayload settings smi) = .ok settings := by
      rw [hne] at hsplit
      unfold setProfileFromPayload
      rw [hsplit]
      rfl
    refine ⟨settings, hdecode, rfl, fun i s hs => ⟨s, hs, rfl, fun _ => rfl⟩⟩
  · have hsplitchar : splitOnChar bsChar (joinSep bsChar
        ((profilePairs settings smi).map (fun p => p.1 ++ eqChar :: p.2)))
        = (profilePairs settings smi).map (fun p => p.1 ++ eqChar :: p.2) :=
      splitOnChar_joinSep bsChar _ (by simpa using hne)
        (fun part hpart => (hmemenc part hpart).1)
    have hblock1 : applyOptions true smi settings
        ((profilePairs settings smi).map (fun p => p.1 ++ eqChar :: p.2))
        = .ok (applyPairs true smi settings (profilePairs settings smi)) :=
      applyOptions_parse true smi settings _ (fun p hp => (hpairfacts p hp).1)
    have hdecode : setProfileFromPayload settings smi
        (getProfilePayload settings smi)
        = .ok (applyPairs true smi settings (profilePairs settings smi)) := by
      unfold setProfileFromPayload
      rw [hsplit]
      show (match applyOptions true smi settings (splitOnChar bsChar
          (joinSep bsChar ((profilePairs settings smi).map
            (fun p => p.1 ++ eqChar :: p.2)))) with
        | Except.error st => Except.error st
        | Except.ok st1 =>
            applyOptions false smi st1 (splitOnChar bsChar ([] : List Char)))
        = Except.ok (applyPairs true smi settings (profilePairs settings smi))
      rw [hsplitchar, hblock1]
      rfl
    refine ⟨applyPairs true smi settings (profilePairs settings smi),
      hdecode, applyPairs_length _ _ _ _, ?_⟩
    intro i s hs
    by_cases hprof : s.isProfile = true
    · cases hd : dictFindIdx settings s._name with
      | none =>
          exfalso
          exact (dictFindIdx_eq_none_iff settings s._name).1 hd s
            (List.mem_iff_getElem?.2 ⟨i, hs⟩) rfl
      | some j =>
          by_cases hji : j = i
          · subst hji
            rw [profilePairs_decomp settings smi j s hs hprof,
              List.append_cons, applyPairs_append]
            obtain ⟨s', hmid, hname', hcat', hval'⟩ :=
              applyPairs_last_target smi settings
                (profilePairs (settings.take j) smi) s._name
                (s.getValue smi) j s hd hs hprof
            refine ⟨s', ?_, hname', fun _ => hval'⟩
            rw [applyPairs_untouched true smi _ _ j ?_, hmid]
            intro q hq hdq
            exfalso
            have hdq' : dictFindIdx settings q.1 = some j := by
              rw [← dictFindIdx_congr _ settings q.1
                (applyPairs_map_name true smi settings _)]
              exact hdq
            obtain ⟨⟨t, ht, htn⟩, _⟩ := dictFindIdx_spec settings q.1 j hdq'
            rw [hs] at ht
            obtain rfl := Option.some.inj ht
            obtain ⟨u, hu, _, rfl⟩ := profilePairs_mem _ smi q hq
            exact drop_names_ne settings s._name j hd u hu htn.symm
          · refine ⟨s, ?_, rfl, fun _ => rfl⟩
            rw [applyPairs_untouched true smi settings _ i ?_]
            · exact hs
            · intro q hq hdq
              exfalso
              obtain ⟨⟨t, ht, htn⟩, _⟩ := dictFindIdx_spec settings q.1 i hdq
              rw [hs] at ht
              obtain rfl := Option.some.inj ht
              rw [htn] at hd
              rw [hd] at hdq
              exact hji (Option.some.inj hdq)
    · have hfalse : s.isProfile = false := by
        cases hb : s.isProfile
        · rfl
        · exact absurd hb hprof
      refine ⟨s, ?_, rfl, fun hp => absurd hp hprof⟩
      rw [applyPairs_untouched true smi settings _ i ?_]
      · exact hs
      · intro q hq hdq
        refine ⟨rfl, fun t ht => ?_⟩
        rw [hs] at ht
        obtain rfl := Option.some.inj ht
        exact hfalse

/-- Witness for C1: the registry of the module (whose profile settings
are `step_degrees` and `step_delay`, with separator-free names and
values) decodes back from its own encoded payload. -/
theorem profile_string_roundtrip_witness :
    (∀ s ∈ [machine_name, language,
        mkSetting "exposure".toList "16".toList .StringType "basic".toList [],
        mkSetting "brightness".toList "128".toList .StringType "basic".toList []],
      s.isProfile = true →
      eqChar ∉ s._name ∧ bsChar ∉ s._name ∧ ffChar ∉ s._name ∧
      bsChar ∉ s.getValue 0 ∧ ffChar ∉ s.getValue 0) ∧
    ∃ final,
      setProfileFromPayload [machine_name, language,
          mkSetting "exposure".toList "16".toList .StringType "basic".toList [],
          mkSetting "brightness".toList "128".toList .StringType "basic".toList []]
        0 (getProfilePayload [machine_name, language,
          mkSetting "exposure".toList "16".toList .StringType "basic".toList [],
          mkSetting "brightness".toList "128".toList .StringType "basic".toList []]
        0) = .ok final ∧
      final.length = [machine_name, language,
          mkSetting "exposure".toList "16".toList .StringType "basic".toList [],
          mkSetting "brightness".toList "128".toList .StringType "basic".toList []].length ∧
      ∀ (i : Nat) (s : setting), [machine_name, language,
          mkSetting "exposure".toList "16".toList .StringType "basic".toList [],
          mkSetting "brightness".toList "128".toList .StringType "basic".toList []][i]?
          = some s →
        ∃ s' : setting, final[i]? = some s' ∧ s'._name = s._name ∧
          (s.isProfile = true → s'.getValue 0 = s.getValue 0) :=
  ⟨by decide, profile_string_roundtrip _ 0 (by decide)⟩

/-- The registry refuting C1 as frozen: a single profile setting whose
name `['a', '\x08', 'b']` contains the pair-separator byte (but no
`'='`), with the empty default value (so its encoded value contains no
separator byte either). -/
def sepNameRegistry : List setting :=
  [mkSetting ['a', bsChar, 'b'] [] .StringType "basic".toList []]

/-- **C1 counterexample.** Under the claim's stated assumptions (names
contain no `'='`; values contain neither separator byte) the round
trip can still fail: when a profile setting's *name* contains the pair
separator `0x08`, the encoded payload splits into an option without
any `'='`, and `setProfileFromString` raises a `ValueError` instead of
restoring the value — decode of encode is an error, not a success. -/
theorem profile_string_roundtrip_name_sep_fails :
    setProfileFromPayload sepNameRegistry 0
      (getProfilePayload sepNameRegistry 0) = .error sepNameRegistry := by
  rfl

end Horus
